import Mathlib

/-!
Verification of the content-glob configuration surface in
`src/tailwind.config.js`.

The source module evaluates to a single default-exported object literal

  module.exports = {
    content: [ "./templates/**/*.html", "./**/templates/**/*.html" ],
    theme: { extend: {} },
    plugins: [],
  };

We embed the exported value twice, at two levels of abstraction:
as a generic JavaScript value (`JSValue` / `module_exports`) so that claims
about the literal's shape (its keys, the kinds of its fields) can be stated,
and as a typed record (`Config` / `tailwindConfig`) for the claims about the
field contents and about consumers of the configuration.

The glob semantics implied by the `content` list is embedded as a
segment-wise matcher: a path is split at `/` into segments, a pattern
segment `**` matches zero or more path segments, and within a segment `*`
matches any character sequence and `?` any single character; a leading `./`
segment of a pattern is stripped, as glob scanners normalise it away.
-/

/-- A JavaScript value as it appears in the configuration module: a string,
an array literal, or an object literal (an ordered list of key/value pairs). -/
inductive JSValue where
  | str : String → JSValue
  | arr : List JSValue → JSValue
  | obj : List (String × JSValue) → JSValue

/-- The value of `module.exports` in `src/tailwind.config.js`, transcribed
literally. -/
def module_exports : JSValue :=
  JSValue.obj
    [ ("content", JSValue.arr
        [ JSValue.str "./templates/**/*.html",
          JSValue.str "./**/templates/**/*.html" ]),
      ("theme", JSValue.obj [("extend", JSValue.obj [])]),
      ("plugins", JSValue.arr []) ]

/-- The keys of an object literal, in source order. -/
def jsKeys : JSValue → List String
  | JSValue.obj kvs => kvs.map Prod.fst
  | _ => []

/-- Field access on an object literal; `none` on non-objects and
missing keys. -/
def jsGet (v : JSValue) (k : String) : Option JSValue :=
  match v with
  | JSValue.obj kvs => kvs.lookup k
  | _ => none

/-- Whether a JavaScript value is a string literal. -/
def isStr : JSValue → Bool
  | JSValue.str _ => true
  | _ => false

/-- The `theme` field of the configuration: a mapping under `extend`,
empty in the source. -/
structure Theme where
  extend : List (String × String)

/-- The typed shape of the exported configuration:
`content` is a list of glob-pattern strings, `theme` carries the `extend`
mapping, and `plugins` is a list of plugin references. -/
structure Config where
  content : List String
  theme : Theme
  plugins : List String

/-- The exported configuration of `src/tailwind.config.js` as a typed
record. -/
def tailwindConfig : Config :=
  ⟨["./templates/**/*.html", "./**/templates/**/*.html"], ⟨[]⟩, []⟩

/-! ## Glob matching -/

/-- Split a character list at `/` into path segments.  Always returns at
least one segment. -/
def splitSegs : List Char → List (List Char)
  | [] => [[]]
  | c :: cs =>
    if c = '/' then [] :: splitSegs cs
    else
      match splitSegs cs with
      | [] => [[c]]
      | s :: ss => (c :: s) :: ss

/-- Rejoin path segments with `/`; the left inverse of `splitSegs`. -/
def joinSegs : List (List Char) → List Char
  | [] => []
  | [s] => s
  | s :: ss => s ++ '/' :: joinSegs ss

/-- Match one glob pattern segment against one path segment: `*` matches any
(possibly empty) character sequence, `?` matches any single character, any
other character matches itself. -/
def segMatch : List Char → List Char → Bool
  | [], cs => cs.isEmpty
  | p :: ps, [] => if p = '*' then segMatch ps [] else false
  | p :: ps, c :: cs =>
    if p = '*' then (List.tails (c :: cs)).any (fun suf => segMatch ps suf)
    else (if p = '?' then true else p == c) && segMatch ps cs

/-- Match a list of glob pattern segments against a list of path segments:
a `**` pattern segment matches zero or more path segments, any other
pattern segment must match exactly one path segment via `segMatch`. -/
def globSegs : List (List Char) → List (List Char) → Bool
  | [], segs => segs.isEmpty
  | p :: ps, [] => if p = ['*', '*'] then globSegs ps [] else false
  | p :: ps, s :: ss =>
    if p = ['*', '*'] then (List.tails (s :: ss)).any (fun suf => globSegs ps suf)
    else segMatch p s && globSegs ps ss

/-- Drop a single leading `.` segment, as glob scanners normalise a leading
`./` in a pattern away. -/
def stripDot : List (List Char) → List (List Char)
  | ['.'] :: rest => rest
  | segs => segs

/-- Whether one glob pattern matches one relative file path. -/
def globMatch (pat path : String) : Bool :=
  globSegs (stripDot (splitSegs pat.data)) (splitSegs path.data)

/-- Whether a scanner driven by a `content` pattern list selects a file
path: it does iff some pattern in the list matches the path. -/
def matchesContent (pats : List String) (path : String) : Bool :=
  pats.any (fun p => globMatch p path)

/-- Whether a character list ends with the given suffix. -/
def listEndsWith (suf l : List Char) : Bool :=
  (List.tails l).any (fun t => t == suf)

/-- Whether a file path ends with the extension `.html`. -/
def endsWithHtml (path : String) : Bool :=
  listEndsWith ".html".data path.data

/-! ## Glob syntactic validity -/

/-- Scan a glob pattern for syntactic validity: every `[` character class
must be closed by `]`, and `{` / `}` alternation braces must be balanced.
`inClass` records whether the scan is inside a character class, `depth` the
current brace nesting. -/
def globValidAux : List Char → Bool → Nat → Bool
  | [], inClass, depth => !inClass && depth == 0
  | c :: cs, true, depth =>
    if c = ']' then globValidAux cs false depth else globValidAux cs true depth
  | c :: cs, false, depth =>
    if c = '[' then globValidAux cs true depth
    else if c = '{' then globValidAux cs false (depth + 1)
    else if c = '}' then decide (depth ≠ 0) && globValidAux cs false (depth - 1)
    else globValidAux cs false depth

/-- A glob pattern is syntactically valid when its character classes and
alternation braces are balanced. -/
def globValid (p : String) : Bool :=
  globValidAux p.data false 0

/-! ## Loading and the build invocation -/

/-- Loading the configuration module: the module body is a single
assignment of an object literal, so evaluation just returns the value. -/
def loadConfig : Unit → Config :=
  fun _ => tailwindConfig

/-- Modelled from the spec: the only error kind, raised by the external
build consumer (not by this artifact) on a syntactically invalid glob or a
pattern matching zero files.  The artifact itself contains no error
handling. -/
inductive ConfigurationError where
  | invalidGlob : String → ConfigurationError
  | zeroMatches : String → ConfigurationError

/-- Evaluating the configuration module as a fallible load: the module body
performs no validation and cannot throw, so the load always succeeds with
the configuration value. -/
def loadModule : Except ConfigurationError Config :=
  Except.ok tailwindConfig

/-- Whether evaluating the module raises an error. -/
def loadModuleRaises : Bool :=
  match loadModule with
  | Except.error _ => true
  | Except.ok _ => false

/-- A read operation an external build step can perform on the loaded
configuration during a single build invocation. -/
inductive BuildOp where
  | readContent
  | readTheme
  | readPlugins

/-- The value a build-step read returns. -/
inductive ReadValue where
  | contentVal : List String → ReadValue
  | themeVal : Theme → ReadValue
  | pluginsVal : List String → ReadValue

/-- Perform one read on the configuration, returning the configuration as
the build step continues to see it together with the value read. -/
def applyOp (c : Config) : BuildOp → Config × ReadValue
  | BuildOp.readContent => (c, ReadValue.contentVal c.content)
  | BuildOp.readTheme => (c, ReadValue.themeVal c.theme)
  | BuildOp.readPlugins => (c, ReadValue.pluginsVal c.plugins)

/-- The configuration as seen after a build invocation performs a sequence
of operations on a loaded configuration. -/
def runBuild (c : Config) (ops : List BuildOp) : Config :=
  ops.foldl (fun c op => (applyOp c op).1) c

/-! ## Claims about the exported literal -/

/-- C1: the module's evaluation yields exactly one default-exported object
literal whose keys are `content`, `theme` and `plugins`, where `content` is
an array of strings, `theme` is an object with an `extend` object field,
and `plugins` is an array. -/
theorem module_exports_shape :
    jsKeys module_exports = ["content", "theme", "plugins"] ∧
    (∃ elems, jsGet module_exports "content" = some (JSValue.arr elems) ∧
      elems.all isStr = true) ∧
    (∃ themeFields extendFields,
      jsGet module_exports "theme" = some (JSValue.obj themeFields) ∧
      themeFields.lookup "extend" = some (JSValue.obj extendFields)) ∧
    (∃ elems, jsGet module_exports "plugins" = some (JSValue.arr elems)) := by
  refine ⟨rfl, ⟨_, rfl, rfl⟩, ⟨[("extend", JSValue.obj [])], [], rfl, rfl⟩, ⟨[], rfl⟩⟩

/-- C3: the exported `content` field is exactly the two-element list
`["./templates/**/*.html", "./**/templates/**/*.html"]`, in that order,
with no other entries. -/
theorem content_exact_list :
    tailwindConfig.content = ["./templates/**/*.html", "./**/templates/**/*.html"] ∧
    jsGet module_exports "content" =
      some (JSValue.arr
        [ JSValue.str "./templates/**/*.html",
          JSValue.str "./**/templates/**/*.html" ]) :=
  ⟨rfl, rfl⟩

/-- C4: in the exported configuration, `theme.extend` is an empty mapping
and `plugins` is an empty sequence. -/
theorem theme_extend_and_plugins_empty :
    tailwindConfig.theme.extend = [] ∧ tailwindConfig.plugins = [] ∧
    jsGet module_exports "theme" = some (JSValue.obj [("extend", JSValue.obj [])]) ∧
    jsGet module_exports "plugins" = some (JSValue.arr []) :=
  ⟨rfl, rfl, rfl, rfl⟩

/-- C2: under the glob semantics implied by the `content` list, a scanner
includes `templates/index.html` and `app/templates/detail.html`, and
excludes `static/logo.svg`. -/
theorem content_scan_scenario :
    matchesContent tailwindConfig.content "templates/index.html" = true ∧
    matchesContent tailwindConfig.content "app/templates/detail.html" = true ∧
    matchesContent tailwindConfig.content "static/logo.svg" = false := by
  refine ⟨?_, ?_, ?_⟩ <;> decide

/-- C5: every pattern in the exported `content` list is a non-empty string
of syntactically valid glob syntax. -/
theorem content_patterns_valid (p : String) (hp : p ∈ tailwindConfig.content) :
    p ≠ "" ∧ globValid p = true := by
  have hc : tailwindConfig.content =
      ["./templates/**/*.html", "./**/templates/**/*.html"] := rfl
  rw [hc] at hp
  rcases List.mem_cons.mp hp with h | h
  · subst h; exact ⟨by decide, by decide⟩
  · rcases List.mem_cons.mp h with h | h
    · subst h; exact ⟨by decide, by decide⟩
    · exact absurd h (List.not_mem_nil p)

theorem content_patterns_valid_witness :
    "./templates/**/*.html" ∈ tailwindConfig.content ∧
    ("./templates/**/*.html" ≠ "" ∧ globValid "./templates/**/*.html" = true) :=
  ⟨by decide, content_patterns_valid "./templates/**/*.html" (by decide)⟩

/-- C6: a build invocation only reads the loaded configuration, so after
any sequence of operations the configuration value is unchanged: the loaded
configuration is immutable for the duration of the invocation. -/
theorem config_immutable_during_build (ops : List BuildOp) :
    runBuild tailwindConfig ops = tailwindConfig := by
  have h : ∀ (l : List BuildOp) (c : Config), runBuild c l = c := by
    intro l
    induction l with
    | nil => intro c; rfl
    | cons op l ih =>
      intro c
      have hfst : (applyOp c op).1 = c := by cases op <;> rfl
      show runBuild (applyOp c op).1 l = c
      rw [hfst]
      exact ih c
  exact h ops tailwindConfig

/-- C7: the set of files a scanner selects from a pattern list depends only
on which patterns occur in it: two lists with the same members (in
particular any permutation, or a list with duplicated entries) match
exactly the same paths. -/
theorem matchesContent_depends_on_members (l l' : List String) (path : String)
    (h : ∀ p, p ∈ l ↔ p ∈ l') :
    matchesContent l path = matchesContent l' path := by
  unfold matchesContent
  cases ha : l.any (fun p => globMatch p path) <;>
    cases hb : l'.any (fun p => globMatch p path)
  · rfl
  · exfalso
    rcases List.any_eq_true.mp hb with ⟨p, hp, hm⟩
    have : l.any (fun p => globMatch p path) = true :=
      List.any_eq_true.mpr ⟨p, (h p).mpr hp, hm⟩
    rw [ha] at this
    exact Bool.false_ne_true this
  · exfalso
    rcases List.any_eq_true.mp ha with ⟨p, hp, hm⟩
    have : l'.any (fun p => globMatch p path) = true :=
      List.any_eq_true.mpr ⟨p, (h p).mp hp, hm⟩
    rw [hb] at this
    exact Bool.false_ne_true this
  · rfl

theorem matchesContent_depends_on_members_witness :
    matchesContent tailwindConfig.content "templates/index.html" =
      matchesContent
        ["./**/templates/**/*.html", "./templates/**/*.html", "./templates/**/*.html"]
        "templates/index.html" :=
  matchesContent_depends_on_members tailwindConfig.content
    ["./**/templates/**/*.html", "./templates/**/*.html", "./templates/**/*.html"]
    "templates/index.html" (by intro p; constructor <;> (intro h; fin_cases h <;> decide))

/-- C8: loading the configuration is deterministic: any two loads of the
module yield value-equal structures. -/
theorem load_deterministic (u v : Unit) : loadConfig u = loadConfig v := rfl

/-- C9: evaluating the artifact itself always succeeds with the
configuration value and never raises; in the embedding the load performs no
glob validation and produces no `ConfigurationError`, which can arise only
in the external consumer. -/
theorem load_never_raises :
    loadModule = Except.ok tailwindConfig ∧ loadModuleRaises = false :=
  ⟨rfl, rfl⟩

/-! ## Helper lemmas for the extension-filtering claim -/

theorem splitSegs_ne_nil (cs : List Char) : splitSegs cs ≠ [] := by
  cases cs with
  | nil => simp [splitSegs]
  | cons c cs =>
    simp only [splitSegs]
    split
    · simp
    · split <;> simp

theorem joinSegs_cons_cons (a b : List Char) (l : List (List Char)) :
    joinSegs (a :: b :: l) = a ++ '/' :: joinSegs (b :: l) := rfl

theorem joinSegs_splitSegs (cs : List Char) : joinSegs (splitSegs cs) = cs := by
  induction cs with
  | nil => rfl
  | cons c cs ih =>
    by_cases hc : c = '/'
    · subst hc
      rcases hsc : splitSegs cs with _ | ⟨s, ss⟩
      · exact absurd hsc (splitSegs_ne_nil cs)
      · have h1 : splitSegs ('/' :: cs) = [] :: s :: ss := by
          simp [splitSegs, hsc]
        rw [h1, joinSegs_cons_cons]
        rw [hsc] at ih
        rw [List.nil_append, ih]
    · rcases hsc : splitSegs cs with _ | ⟨s, ss⟩
      · exact absurd hsc (splitSegs_ne_nil cs)
      · have h1 : splitSegs (c :: cs) = (c :: s) :: ss := by
          simp only [splitSegs, if_neg hc, hsc]
        rw [h1]
        rw [hsc] at ih
        cases ss with
        | nil =>
          have hs : s = cs := ih
          show c :: s = c :: cs
          rw [hs]
        | cons s2 ss2 =>
          rw [joinSegs_cons_cons]
          rw [joinSegs_cons_cons] at ih
          show (c :: s) ++ '/' :: joinSegs (s2 :: ss2) = c :: cs
          rw [List.cons_append, ih]

theorem suffix_joinSegs (ss : List (List Char)) (s : List Char) :
    s <:+ joinSegs (ss ++ [s]) := by
  induction ss with
  | nil => exact List.suffix_refl s
  | cons x ss ih =>
    rcases hss : ss ++ [s] with _ | ⟨y, ys⟩
    · exact absurd hss (by simp)
    · have h1 : (x :: ss) ++ [s] = x :: y :: ys := by rw [List.cons_append, hss]
      rw [h1, joinSegs_cons_cons, ← hss]
      exact ih.trans ((List.suffix_cons '/' _).trans (List.suffix_append x _))

theorem segMatch_star (ps : List Char) (cs : List Char)
    (h : segMatch ('*' :: ps) cs = true) :
    ∃ suf, suf <:+ cs ∧ segMatch ps suf = true := by
  cases cs with
  | nil =>
    simp only [segMatch, if_pos rfl] at h
    exact ⟨[], List.suffix_refl [], h⟩
  | cons c cs' =>
    simp only [segMatch, if_pos rfl] at h
    rcases List.any_eq_true.mp h with ⟨suf, hmem, hm⟩
    exact ⟨suf, (List.mem_tails suf (c :: cs')).mp hmem, hm⟩

theorem segMatch_literal : ∀ (ps : List Char), '*' ∉ ps → '?' ∉ ps →
    ∀ cs, segMatch ps cs = true → cs = ps := by
  intro ps
  induction ps with
  | nil =>
    intro _ _ cs h
    have h' : cs.isEmpty = true := h
    simpa [List.isEmpty_iff] using h'
  | cons p ps ih =>
    intro h1 h2 cs h
    have hp1 : p ≠ '*' := fun hh => h1 (hh ▸ List.mem_cons_self p ps)
    have hp2 : p ≠ '?' := fun hh => h2 (hh ▸ List.mem_cons_self p ps)
    cases cs with
    | nil =>
      simp only [segMatch, if_neg hp1] at h
      exact absurd h (by simp)
    | cons c cs' =>
      simp only [segMatch, if_neg hp1, if_neg hp2, Bool.and_eq_true] at h
      obtain ⟨hpc, hrest⟩ := h
      have hc : p = c := eq_of_beq hpc
      have hcs : cs' = ps :=
        ih (fun hh => h1 (List.mem_cons_of_mem p hh))
          (fun hh => h2 (List.mem_cons_of_mem p hh)) cs' hrest
      rw [hcs, ← hc]

theorem globSegs_last (q : List Char) (hq : q ≠ ['*', '*']) :
    ∀ (ps segs : List (List Char)), globSegs (ps ++ [q]) segs = true →
      ∃ ss s, segs = ss ++ [s] ∧ segMatch q s = true := by
  intro ps
  induction ps with
  | nil =>
    intro segs h
    cases segs with
    | nil =>
      simp only [List.nil_append, globSegs, if_neg hq] at h
      exact absurd h (by simp)
    | cons s ss =>
      simp only [List.nil_append, globSegs, if_neg hq, Bool.and_eq_true] at h
      obtain ⟨hm, hrest⟩ := h
      have hss : ss = [] := by
        have hr : ss.isEmpty = true := hrest
        simpa [List.isEmpty_iff] using hr
      exact ⟨[], s, by rw [hss]; rfl, hm⟩
  | cons p ps ih =>
    intro segs h
    rw [List.cons_append] at h
    by_cases hp : p = ['*', '*']
    · cases segs with
      | nil =>
        simp only [globSegs, if_pos hp] at h
        rcases ih [] h with ⟨ss, s, hsuf, hms⟩
        exact ⟨ss, s, hsuf, hms⟩
      | cons s0 ss0 =>
        simp only [globSegs, if_pos hp] at h
        rcases List.any_eq_true.mp h with ⟨suf, hmem, hm⟩
        rcases ih suf hm with ⟨ss, s, hsuf, hms⟩
        rcases (List.mem_tails suf (s0 :: ss0)).mp hmem with ⟨pre, hpre⟩
        exact ⟨pre ++ ss, s, by rw [← hpre, hsuf, List.append_assoc], hms⟩
    · cases segs with
      | nil =>
        simp only [globSegs, if_neg hp] at h
        exact absurd h (by simp)
      | cons s0 ss0 =>
        simp only [globSegs, if_neg hp, Bool.and_eq_true] at h
        obtain ⟨_, hrest⟩ := h
        rcases ih ss0 hrest with ⟨ss, s, hss, hms⟩
        exact ⟨s0 :: ss, s, by rw [hss]; rfl, hms⟩

theorem listEndsWith_of_suffix (suf l : List Char) (h : suf <:+ l) :
    listEndsWith suf l = true := by
  unfold listEndsWith
  exact List.any_eq_true.mpr ⟨suf, (List.mem_tails suf l).mpr h, by simp⟩

theorem globMatch_html_suffix (ps : List (List Char)) (path : String)
    (h : globSegs (ps ++ ["*.html".data]) (splitSegs path.data) = true) :
    endsWithHtml path = true := by
  rcases globSegs_last "*.html".data (by decide) ps _ h with ⟨ss, s, hsegs, hsm⟩
  have hsm' : segMatch ('*' :: ".html".data) s = true := hsm
  rcases segMatch_star _ _ hsm' with ⟨suf, hsuf, hm2⟩
  have hlit : suf = ".html".data :=
    segMatch_literal ".html".data (by decide) (by decide) suf hm2
  have h1 : (".html".data) <:+ s := hlit ▸ hsuf
  have h2 : s <:+ path.data := by
    have hj : path.data = joinSegs (ss ++ [s]) := by
      rw [← hsegs, joinSegs_splitSegs]
    rw [hj]
    exact suffix_joinSegs ss s
  have h3 : (".html".data) <:+ path.data := h1.trans h2
  unfold endsWithHtml
  exact listEndsWith_of_suffix _ _ h3

/-- C10: every pattern in the exported `content` list requires the final
path segment to match `*.html`, so a path that does not end with the
extension `.html` is never selected for scanning. -/
theorem content_only_html (path : String) (h : endsWithHtml path = false) :
    matchesContent tailwindConfig.content path = false := by
  cases hm : matchesContent tailwindConfig.content path with
  | false => rfl
  | true =>
    exfalso
    unfold matchesContent at hm
    rcases List.any_eq_true.mp hm with ⟨p, hp, hmatch⟩
    have hc : tailwindConfig.content =
        ["./templates/**/*.html", "./**/templates/**/*.html"] := rfl
    rw [hc] at hp
    have hhtml : endsWithHtml path = true := by
      rcases List.mem_cons.mp hp with h1 | h1
      · subst h1
        unfold globMatch at hmatch
        have e1 : stripDot (splitSegs ("./templates/**/*.html").data) =
            ["templates".data, "**".data] ++ ["*.html".data] := by decide
        rw [e1] at hmatch
        exact globMatch_html_suffix _ path hmatch
      · rcases List.mem_cons.mp h1 with h2 | h2
        · subst h2
          unfold globMatch at hmatch
          have e2 : stripDot (splitSegs ("./**/templates/**/*.html").data) =
              ["**".data, "templates".data, "**".data] ++ ["*.html".data] := by decide
          rw [e2] at hmatch
          exact globMatch_html_suffix _ path hmatch
        · exact absurd h2 (List.not_mem_nil p)
    exact Bool.false_ne_true (h.symm.trans hhtml)

theorem content_only_html_witness :
    endsWithHtml "static/logo.svg" = false ∧
    matchesContent tailwindConfig.content "static/logo.svg" = false :=
  ⟨by decide, content_only_html "static/logo.svg" (by decide)⟩
